import Mathlib

/-!
Shallow embedding of the instrumented randomized quicksort of
`src/script.js` (repository `visualquicksort`), together with proofs of
the behavioural claims of the specification.

Modelling conventions:
* JavaScript arrays of numbers are modelled as `List α`; the comparison
  `<` of the source is a parameter `lt : α → α → Bool` (for genuine
  numeric inputs it is the strict order of a `LinearOrder`, see `ltb`).
* The pair of mutable globals used by the algorithm — the working array
  `arr` and the step log `steps` — is the explicit state `St`.
* `Math.random()` is modelled by a stream `rand : ℕ → ℕ` of arbitrary
  natural numbers together with a counter `k`; the `k`-th call of
  `Math.floor(Math.random() * (high - low + 1)) + low` becomes
  `low + rand k % (high - low + 1)`, which like the source always lies
  in `[low, high]` when `low ≤ high`.
* The destructuring swap `[arr[i], arr[j]] = [arr[j], arr[i]]` becomes
  `listSwap`; index arithmetic is over `ℤ` exactly as JavaScript
  integers behave in this program, converted with `Int.toNat` at the
  point of list access.
* Parsed user input is a list of `JSNum` values (NaN, ±Infinity or a
  finite rational), and the `numbers.some(isNaN)` guard of
  `generateArray` is `List.any jsIsNaN`.
-/

/-- The `highlight` descriptor stored with every step by `saveStep`:
`{pivot: …}`, `{pivot: …, compare: …}`, `{sorted: true}` or `{}`. -/
structure Highlight where
  pivot : Option ℤ
  compare : Option ℤ
  sorted : Bool
deriving DecidableEq

/-- The empty highlight `{}`. -/
def Highlight.none' : Highlight := ⟨none, none, false⟩

/-- One element of `steps`: a full copy of the array plus a highlight. -/
structure Snapshot (α : Type) where
  array : List α
  highlight : Highlight
deriving DecidableEq

/-- The mutable state of the sorter: the working array (the JS array the
recursion mutates in place) and the global `steps` log. -/
structure St (α : Type) where
  arr : List α
  steps : List (Snapshot α)
deriving DecidableEq

/-- `saveStep(arr, highlight)`: push `{array: [...arr], highlight: {...highlight}}`
onto `steps`.  The spread `[...arr]` is a copy; in the embedding the
snapshot therefore stores the list value of the array at this moment. -/
def saveStep {α : Type} (st : St α) (h : Highlight) : St α :=
  ⟨st.arr, st.steps ++ [⟨st.arr, h⟩]⟩

/-- The destructuring swap `[l[i], l[j]] = [l[j], l[i]]`.  When either
index is out of range the source never executes the swap, so the
fallback branch leaves the list unchanged. -/
def listSwap {α : Type} (l : List α) (i j : ℕ) : List α :=
  match l[i]?, l[j]? with
  | some a, some b => (l.set i b).set j a
  | _, _ => l

/-- JavaScript `x < p` where either operand may be `undefined`
(out-of-range access): any comparison involving `undefined` is false. -/
def optLt {α : Type} (lt : α → α → Bool) : Option α → Option α → Bool
  | some a, some b => lt a b
  | _, _ => false

/-- The scan loop of `randomizedPartition` (lines 131–141 of
`src/script.js`): for `j` from its initial value up to `high - 1`,
record a compare snapshot `{pivot: high, compare: j}`; when
`arr[j] < pivot` increment `i`, swap `arr[i]` with `arr[j]` and record a
post-swap snapshot `{pivot: high}`.  Returns the final `i` and state. -/
def partitionLoop {α : Type} (lt : α → α → Bool) (pv : Option α) (high : ℤ) :
    ℤ → ℤ → St α → ℤ × St α := fun j i st =>
  if h : j < high then
    let st1 := saveStep st ⟨some high, some j, false⟩
    if optLt lt st1.arr[j.toNat]? pv then
      let st2 : St α := ⟨listSwap st1.arr (i + 1).toNat j.toNat, st1.steps⟩
      let st3 := saveStep st2 ⟨some high, none, false⟩
      partitionLoop lt pv high (j + 1) (i + 1) st3
    else
      partitionLoop lt pv high (j + 1) i st1
  else (i, st)
termination_by j => (high - j).toNat
decreasing_by all_goals omega

/-- `randomizedPartition(arr, low, high)` (lines 119–149 of
`src/script.js`) with the random draw `c` supplied explicitly:
pick `randomIndex` in `[low, high]`, record `{pivot: randomIndex}`,
move the pivot to the end, run the scan loop, put the pivot at `i + 1`,
record a final snapshot with no highlight, and return `i + 1`. -/
def randomizedPartition {α : Type} (lt : α → α → Bool) (c : ℕ)
    (low high : ℤ) (st : St α) : ℤ × St α :=
  let randomIndex : ℤ := low + (c % (high - low + 1).toNat : ℕ)
  let st1 := saveStep st ⟨some randomIndex, none, false⟩
  let arr2 := listSwap st1.arr randomIndex.toNat high.toNat
  let pv := arr2[high.toNat]?
  let r := partitionLoop lt pv high low (low - 1) ⟨arr2, st1.steps⟩
  let arr4 := listSwap r.2.arr (r.1 + 1).toNat high.toNat
  (r.1 + 1, saveStep ⟨arr4, r.2.steps⟩ Highlight.none')

/-! ### Elementary facts about `listSwap` -/

theorem listSwap_length {α : Type} (l : List α) (i j : ℕ) :
    (listSwap l i j).length = l.length := by
  unfold listSwap
  split <;> simp

theorem listSwap_getElem?_other {α : Type} (l : List α) (i j m : ℕ)
    (hmi : m ≠ i) (hmj : m ≠ j) : (listSwap l i j)[m]? = l[m]? := by
  unfold listSwap
  split
  · rw [List.getElem?_set_ne (by omega), List.getElem?_set_ne (by omega)]
  · rfl

theorem listSwap_getElem?_snd {α : Type} (l : List α) (i j : ℕ) (a b : α)
    (h1 : l[i]? = some a) (h2 : l[j]? = some b) :
    (listSwap l i j)[j]? = some a := by
  unfold listSwap
  rw [h1, h2]
  have hj : j < l.length := (List.getElem?_eq_some_iff.mp h2).1
  rw [List.getElem?_set_self (by simpa using hj)]

theorem listSwap_getElem?_fst {α : Type} (l : List α) (i j : ℕ) (a b : α)
    (hij : i ≠ j) (h1 : l[i]? = some a) (h2 : l[j]? = some b) :
    (listSwap l i j)[i]? = some b := by
  unfold listSwap
  rw [h1, h2]
  have hi : i < l.length := (List.getElem?_eq_some_iff.mp h1).1
  rw [List.getElem?_set_ne (by omega), List.getElem?_set_self hi]

theorem set_cons_perm {α : Type} :
    ∀ (t : List α) (k : ℕ) (a b : α), t[k]? = some b →
      (a :: t).Perm (b :: t.set k a)
  | [], k, a, b, h => by simp at h
  | x :: t, 0, a, b, h => by
    simp only [List.getElem?_cons_zero, Option.some.injEq] at h
    subst h
    simpa using List.Perm.swap x a t
  | x :: t, k + 1, a, b, h => by
    simp only [List.getElem?_cons_succ] at h
    have ih := set_cons_perm t k a b h
    simpa using ((List.Perm.swap x a t).trans (List.Perm.cons x ih)).trans
      (List.Perm.swap b x (t.set k a))

theorem set_set_perm {α : Type} :
    ∀ (l : List α) (i j : ℕ) (a b : α), l[i]? = some a → l[j]? = some b →
      ((l.set i b).set j a).Perm l
  | [], i, j, a, b, h1, h2 => by simp at h1
  | x :: t, 0, 0, a, b, h1, h2 => by
    simp only [List.getElem?_cons_zero, Option.some.injEq] at h1 h2
    subst h1
    simp
  | x :: t, 0, j + 1, a, b, h1, h2 => by
    simp only [List.getElem?_cons_zero, Option.some.injEq,
      List.getElem?_cons_succ] at h1 h2
    subst h1
    simpa using (set_cons_perm t j x b h2).symm
  | x :: t, i + 1, 0, a, b, h1, h2 => by
    simp only [List.getElem?_cons_zero, Option.some.injEq,
      List.getElem?_cons_succ] at h1 h2
    subst h2
    simpa using (set_cons_perm t i x a h1).symm
  | x :: t, i + 1, j + 1, a, b, h1, h2 => by
    simp only [List.getElem?_cons_succ] at h1 h2
    simpa using List.Perm.cons x (set_set_perm t i j a b h1 h2)

theorem listSwap_perm {α : Type} (l : List α) (i j : ℕ) :
    (listSwap l i j).Perm l := by
  unfold listSwap
  split
  · next a b h1 h2 => exact set_set_perm l i j a b h1 h2
  · exact List.Perm.refl l

/-! ### Range of the partition boundary, and the recursive sorter -/

theorem partitionLoop_fst_range {α : Type} (lt : α → α → Bool) (pv : Option α)
    (high : ℤ) :
    ∀ (B : ℕ) (j i : ℤ) (st : St α), (high - j).toNat ≤ B →
      i ≤ (partitionLoop lt pv high j i st).1 ∧
      (i < j → j ≤ high → (partitionLoop lt pv high j i st).1 < high) := by
  intro B
  induction B with
  | zero =>
    intro j i st hB
    rw [partitionLoop, dif_neg (by omega)]
    exact ⟨le_refl i, fun h1 h2 => by omega⟩
  | succ B ih =>
    intro j i st hB
    rw [partitionLoop]
    by_cases hj : j < high
    · rw [dif_pos hj]
      by_cases hc : optLt lt (saveStep st ⟨some high, some j, false⟩).arr[j.toNat]? pv = true
      · rw [if_pos hc]
        refine ⟨?_, fun h1 h2 => ?_⟩
        · exact le_trans (by omega) (ih (j + 1) (i + 1) _ (by omega)).1
        · exact (ih (j + 1) (i + 1) _ (by omega)).2 (by omega) (by omega)
      · rw [if_neg hc]
        refine ⟨?_, fun h1 h2 => ?_⟩
        · exact (ih (j + 1) i _ (by omega)).1
        · exact (ih (j + 1) i _ (by omega)).2 (by omega) (by omega)
    · rw [dif_neg hj]
      exact ⟨le_refl i, fun h1 h2 => by omega⟩

theorem randomizedPartition_fst_ge {α : Type} (lt : α → α → Bool) (c : ℕ)
    (low high : ℤ) (st : St α) :
    low ≤ (randomizedPartition lt c low high st).1 := by
  have key : ∀ (pv : Option α) (st' : St α),
      low ≤ (partitionLoop lt pv high low (low - 1) st').1 + 1 := fun pv st' => by
    have h := (partitionLoop_fst_range lt pv high (high - low).toNat low (low - 1) st'
      (by omega)).1
    omega
  simp only [randomizedPartition]
  exact key _ _

theorem randomizedPartition_fst_le {α : Type} (lt : α → α → Bool) (c : ℕ)
    (low high : ℤ) (st : St α) (hlh : low < high) :
    (randomizedPartition lt c low high st).1 ≤ high := by
  have key : ∀ (pv : Option α) (st' : St α),
      (partitionLoop lt pv high low (low - 1) st').1 + 1 ≤ high := fun pv st' => by
    have h := (partitionLoop_fst_range lt pv high (high - low).toNat low (low - 1) st'
      (by omega)).2 (by omega) (by omega)
    omega
  simp only [randomizedPartition]
  exact key _ _

/-- `randomizedQuickSort(arr, low, high)` (lines 106–112 of
`src/script.js`).  The random stream `rand` and the index `k` of the
next unconsumed draw are threaded through; the returned `ℕ` is the
counter after the call. -/
def randomizedQuickSort {α : Type} (lt : α → α → Bool) (rand : ℕ → ℕ)
    (k : ℕ) (low high : ℤ) (st : St α) : ℕ × St α :=
  if h : low < high then
    let p := randomizedPartition lt (rand k) low high st
    let l := randomizedQuickSort lt rand (k + 1) low (p.1 - 1) p.2
    randomizedQuickSort lt rand l.1 (p.1 + 1) high l.2
  else (k, st)
termination_by (high - low + 1).toNat
decreasing_by
  · have h1 := randomizedPartition_fst_ge lt (rand k) low high st
    have h2 := randomizedPartition_fst_le lt (rand k) low high st h
    omega
  · have h1 := randomizedPartition_fst_ge lt (rand k) low high st
    have h2 := randomizedPartition_fst_le lt (rand k) low high st h
    omega

/-- The trace-producing part of `generateArray` (lines 89–93 of
`src/script.js`), i.e. the core `sort(input) → Trace` of the spec:
reset `steps`, record the initial snapshot of `input`, run
`randomizedQuickSort` on a copy `[...array]` of the input over
`[0, length - 1]`, then append the last recorded array once more with
`{sorted: true}`. -/
def sortTrace {α : Type} (lt : α → α → Bool) (rand : ℕ → ℕ)
    (input : List α) : List (Snapshot α) :=
  let st1 : St α := saveStep ⟨input, []⟩ Highlight.none'
  let st2 := (randomizedQuickSort lt rand 0 0 ((input.length : ℤ) - 1)
    ⟨input, st1.steps⟩).2
  let lastArr := (st2.steps.getLast?).elim [] Snapshot.array
  st2.steps ++ [⟨lastArr, ⟨none, none, true⟩⟩]

/-- A parsed JavaScript number as produced by `Number(x.trim())` on one
comma-separated field: `NaN`, `±Infinity`, or a finite value. -/
inductive JSNum : Type where
  | nan : JSNum
  | posInf : JSNum
  | negInf : JSNum
  | fin : ℚ → JSNum
deriving DecidableEq

/-- JavaScript `isNaN` on a parsed number. -/
def jsIsNaN : JSNum → Bool
  | JSNum.nan => true
  | _ => false

/-- JavaScript `<` on numbers (IEEE-754 semantics: any comparison with
NaN is false, `-Infinity` is below and `Infinity` above every other
value, and neither infinity is below itself). -/
def jsNumLt : JSNum → JSNum → Bool
  | JSNum.nan, _ => false
  | _, JSNum.nan => false
  | JSNum.negInf, JSNum.negInf => false
  | JSNum.negInf, _ => true
  | _, JSNum.negInf => false
  | JSNum.posInf, _ => false
  | JSNum.fin _, JSNum.posInf => true
  | JSNum.fin q, JSNum.fin r => decide (q < r)

/-- The input-validation path of `generateArray` (lines 79–93 of
`src/script.js`) on an already-parsed list of numbers: if any entry is
NaN the function alerts and returns with `steps` still empty, otherwise
it records the full sorting trace. -/
def genSteps (rand : ℕ → ℕ) (numbers : List JSNum) : List (Snapshot JSNum) :=
  if numbers.any jsIsNaN then [] else sortTrace jsNumLt rand numbers

/-- The comparison actually used by the source on valid (finite) numeric
inputs: the strict order of a linear order. -/
def ltb {α : Type} [LinearOrder α] : α → α → Bool := fun a b => decide (a < b)

/-- Mutating the live array of a state in place (the only kind of
mutation the caller of `sort` can perform afterwards); the `steps` log
is untouched because each snapshot stored a copy. -/
def mutateArr {α : Type} (st : St α) (l : List α) : St α :=
  ⟨l, st.steps⟩

/-! ### Further helpers -/

theorem optLt_some_true {α : Type} (lt : α → α → Bool) (o : Option α) (pvv : α)
    (h : optLt lt o (some pvv) = true) : ∃ a, o = some a ∧ lt a pvv = true := by
  cases o with
  | none => simp [optLt] at h
  | some a => exact ⟨a, rfl, h⟩

theorem optLt_some_false {α : Type} (lt : α → α → Bool) (o : Option α) (pvv : α)
    (h : ¬ optLt lt o (some pvv) = true) :
    ∀ v, o = some v → lt v pvv = false := by
  intro v hv
  subst hv
  simpa [optLt] using h

theorem listSwap_band {α : Type} (l : List α) (a b : ℕ) (lo hi : ℤ)
    (p : α → Prop)
    (ha1 : lo ≤ (a : ℤ)) (ha2 : (a : ℤ) ≤ hi) (hb1 : lo ≤ (b : ℤ))
    (hb2 : (b : ℤ) ≤ hi)
    (hband : ∀ m : ℕ, lo ≤ (m : ℤ) → (m : ℤ) ≤ hi → ∀ v, l[m]? = some v → p v) :
    ∀ m : ℕ, lo ≤ (m : ℤ) → (m : ℤ) ≤ hi → ∀ v, (listSwap l a b)[m]? = some v → p v := by
  intro m hm1 hm2 v hv
  unfold listSwap at hv
  revert hv
  split
  · next x y hx hy =>
    intro hv
    have hxlen : a < l.length := (List.getElem?_eq_some_iff.mp hx).1
    have hylen : b < l.length := (List.getElem?_eq_some_iff.mp hy).1
    by_cases hmb : m = b
    · subst hmb
      rw [List.getElem?_set_self (by simpa using hylen)] at hv
      cases hv
      exact hband a ha1 ha2 _ hx
    · rw [List.getElem?_set_ne (by omega)] at hv
      by_cases hma : m = a
      · subst hma
        rw [List.getElem?_set_self hxlen] at hv
        cases hv
        exact hband b hb1 hb2 _ hy
      · rw [List.getElem?_set_ne (by omega)] at hv
        exact hband m hm1 hm2 v hv
  · intro hv
    exact hband m hm1 hm2 v hv

theorem partitionLoop_stop {α : Type} (lt : α → α → Bool) (pv : Option α)
    (high j i : ℤ) (st : St α) (hj : ¬ j < high) :
    partitionLoop lt pv high j i st = (i, st) := by
  rw [partitionLoop, dif_neg hj]

/-- The full loop invariant of the partition scan: returned boundary
range, length preservation, frame outside the touched region,
permutation, the two partition bands (strictly below the pivot value up
to `i'`, not below it strictly between `i'` and `high`), preservation of
any value band over `[lo, high]`, and the append-only evolution of the
step log with every appended snapshot a permutation of the entry
array. -/
theorem partitionLoop_main {α : Type} (lt : α → α → Bool) (pvv : α) (high : ℤ) :
    ∀ (B : ℕ) (j i lo : ℤ) (st : St α) (i' : ℤ) (st' : St α),
      partitionLoop lt (some pvv) high j i st = (i', st') →
      (high - j).toNat ≤ B →
      -1 ≤ i → i < j → j ≤ high → lo ≤ i + 1 → 0 ≤ lo →
      (high : ℤ) ≤ st.arr.length →
      (∀ m : ℕ, lo ≤ (m : ℤ) → (m : ℤ) ≤ i → ∀ v, st.arr[m]? = some v →
        lt v pvv = true) →
      (∀ m : ℕ, i < (m : ℤ) → (m : ℤ) < j → ∀ v, st.arr[m]? = some v →
        lt v pvv = false) →
      (i ≤ i' ∧ i' < high) ∧
      st'.arr.length = st.arr.length ∧
      (∀ m : ℕ, ((m : ℤ) ≤ i ∨ high ≤ (m : ℤ)) → st'.arr[m]? = st.arr[m]?) ∧
      st'.arr.Perm st.arr ∧
      (∀ m : ℕ, lo ≤ (m : ℤ) → (m : ℤ) ≤ i' → ∀ v, st'.arr[m]? = some v →
        lt v pvv = true) ∧
      (∀ m : ℕ, i' < (m : ℤ) → (m : ℤ) < high → ∀ v, st'.arr[m]? = some v →
        lt v pvv = false) ∧
      (∀ p : α → Prop,
        (∀ m : ℕ, lo ≤ (m : ℤ) → (m : ℤ) ≤ high → ∀ v, st.arr[m]? = some v → p v) →
        (∀ m : ℕ, lo ≤ (m : ℤ) → (m : ℤ) ≤ high → ∀ v, st'.arr[m]? = some v → p v)) ∧
      (∃ Δ, st'.steps = st.steps ++ Δ ∧ ∀ s ∈ Δ, s.array.Perm st.arr) := by
  intro B
  induction B with
  | zero =>
    intro j i lo st i' st' hres hB h1 h2 h3 h4 h5 hlen hA hB'
    rw [partitionLoop_stop lt (some pvv) high j i st (by omega)] at hres
    injection hres with hi hst
    subst hi; subst hst
    refine ⟨⟨le_refl i, by omega⟩, rfl, fun m _ => rfl, List.Perm.refl _, hA,
      fun m hm1 hm2 => hB' m hm1 (by omega), fun p hp => hp, ⟨[], by simp, by simp⟩⟩
  | succ B ih =>
    intro j i lo st i' st' hres hB h1 h2 h3 h4 h5 hlen hA hB'
    by_cases hj : j < high
    · rw [partitionLoop, dif_pos hj] at hres
      by_cases hc : optLt lt (saveStep st ⟨some high, some j, false⟩).arr[j.toNat]? (some pvv) = true
      · rw [if_pos hc] at hres
        have hc' : optLt lt st.arr[j.toNat]? (some pvv) = true := hc
        obtain ⟨aj, haj, hajlt⟩ := optLt_some_true lt _ pvv hc'
        -- the element previously at the boundary position i + 1
        have hi1lt : (i + 1).toNat < st.arr.length := by omega
        have hi1 : st.arr[(i + 1).toNat]? = some (st.arr[(i + 1).toNat]) :=
          List.getElem?_eq_getElem hi1lt
        -- the swapped array
        have hswA : ∀ m : ℕ, lo ≤ (m : ℤ) → (m : ℤ) ≤ i + 1 → ∀ v,
            (listSwap st.arr (i + 1).toNat j.toNat)[m]? = some v → lt v pvv = true := by
          intro m hm1 hm2 v hv
          by_cases hmi : (m : ℤ) = i + 1
          · by_cases hij : i + 1 = j
            · have heq : st.arr[(i + 1).toNat]? = some aj := by
                rw [show (i + 1).toNat = j.toNat from by omega]
                exact haj
              have hm : m = j.toNat := by omega
              subst hm
              rw [listSwap_getElem?_snd st.arr (i + 1).toNat j.toNat aj aj heq haj] at hv
              cases hv
              exact hajlt
            · have hm : m = (i + 1).toNat := by omega
              subst hm
              rw [listSwap_getElem?_fst st.arr _ j.toNat _ aj (by omega) hi1 haj] at hv
              cases hv
              exact hajlt
          · have hmle : (m : ℤ) ≤ i := by omega
            rw [listSwap_getElem?_other st.arr _ _ m (by omega) (by omega)] at hv
            exact hA m hm1 hmle v hv
        have hswB : ∀ m : ℕ, i + 1 < (m : ℤ) → (m : ℤ) < j + 1 → ∀ v,
            (listSwap st.arr (i + 1).toNat j.toNat)[m]? = some v → lt v pvv = false := by
          intro m hm1 hm2 v hv
          by_cases hmj : (m : ℤ) = j
          · have hm : m = j.toNat := by omega
            subst hm
            rw [listSwap_getElem?_snd st.arr _ _ _ aj hi1 haj] at hv
            cases hv
            exact hB' (i + 1).toNat (by omega) (by omega) _ hi1
          · rw [listSwap_getElem?_other st.arr _ _ m (by omega) (by omega)] at hv
            exact hB' m (by omega) (by omega) v hv
        have IH := ih (j + 1) (i + 1) lo _ i' st' hres (by omega) (by omega)
          (by omega) (by omega) (by omega) h5
          (by simpa [saveStep, listSwap_length] using hlen)
          (by simpa [saveStep] using hswA)
          (by simpa [saveStep] using hswB)
        simp only [saveStep] at IH
        obtain ⟨IHr, IHlen, IHfr, IHperm, IHA, IHB, IHband, Δ', hΔ', hΔp⟩ := IH
        refine ⟨⟨by omega, IHr.2⟩, ?_, ?_, ?_, IHA, IHB, ?_, ?_⟩
        · rw [IHlen, listSwap_length]
        · intro m hm
          rw [IHfr m (by omega),
            listSwap_getElem?_other st.arr _ _ m (by omega) (by omega)]
        · exact IHperm.trans (listSwap_perm st.arr _ _)
        · intro p hp
          exact IHband p (listSwap_band st.arr (i + 1).toNat j.toNat lo high p
            (by omega) (by omega) (by omega) (by omega) hp)
        · refine ⟨⟨st.arr, ⟨some high, some j, false⟩⟩ ::
            ⟨listSwap st.arr (i + 1).toNat j.toNat, ⟨some high, none, false⟩⟩ :: Δ', ?_, ?_⟩
          · rw [hΔ']
            simp
          · intro s hs
            simp only [List.mem_cons] at hs
            rcases hs with rfl | rfl | hs
            · exact List.Perm.refl _
            · exact listSwap_perm st.arr _ _
            · exact (hΔp s hs).trans (listSwap_perm st.arr _ _)
      · rw [if_neg hc] at hres
        have hc' : ¬ optLt lt st.arr[j.toNat]? (some pvv) = true := hc
        have hBext : ∀ m : ℕ, i < (m : ℤ) → (m : ℤ) < j + 1 → ∀ v,
            st.arr[m]? = some v → lt v pvv = false := by
          intro m hm1 hm2 v hv
          by_cases hmj : (m : ℤ) = j
          · have hm : m = j.toNat := by omega
            subst hm
            exact optLt_some_false lt _ pvv hc' v hv
          · exact hB' m hm1 (by omega) v hv
        have IH := ih (j + 1) i lo _ i' st' hres (by omega) h1 (by omega)
          (by omega) h4 h5 (by simpa [saveStep] using hlen)
          (by simpa [saveStep] using hA) (by simpa [saveStep] using hBext)
        simp only [saveStep] at IH
        obtain ⟨IHr, IHlen, IHfr, IHperm, IHA, IHB, IHband, Δ', hΔ', hΔp⟩ := IH
        refine ⟨IHr, IHlen, IHfr, IHperm, IHA, IHB, IHband, ?_⟩
        refine ⟨⟨st.arr, ⟨some high, some j, false⟩⟩ :: Δ', ?_, ?_⟩
        · rw [hΔ']
          simp
        · intro s hs
          simp only [List.mem_cons] at hs
          rcases hs with rfl | hs
          · exact List.Perm.refl _
          · exact hΔp s hs
    · rw [partitionLoop_stop lt (some pvv) high j i st hj] at hres
      injection hres with hi hst
      subst hi; subst hst
      refine ⟨⟨le_refl i, by omega⟩, rfl, fun m _ => rfl, List.Perm.refl _, hA,
        fun m hm1 hm2 => hB' m hm1 (by omega), fun p hp => hp, ⟨[], by simp, by simp⟩⟩

/-- Behaviour of one `randomizedPartition` call on a genuine subrange
`low < high` of the working array: the returned pivot position is inside
`[low, high]`; the array keeps its length, is permuted, and is unchanged
outside `[low, high]`; at the pivot position sits a value `pvv` with
everything left of it strictly below `pvv` and everything right of it
not below `pvv`; any value band over `[low, high]` is preserved; the
step log only grows, by at least one snapshot, each appended snapshot
being a permutation of the entry array; and the last recorded snapshot
is the exit array. -/
theorem randomizedPartition_main {α : Type} (lt : α → α → Bool) (c : ℕ)
    (low high : ℤ) (st : St α) (hlh : low < high) (hlow : 0 ≤ low)
    (hlen : (high : ℤ) < st.arr.length) :
    ∀ (pi : ℤ) (st' : St α), randomizedPartition lt c low high st = (pi, st') →
      (low ≤ pi ∧ pi ≤ high) ∧
      st'.arr.length = st.arr.length ∧
      (∀ m : ℕ, ((m : ℤ) < low ∨ high < (m : ℤ)) → st'.arr[m]? = st.arr[m]?) ∧
      st'.arr.Perm st.arr ∧
      (∃ pvv, st'.arr[pi.toNat]? = some pvv ∧
        (∀ m : ℕ, low ≤ (m : ℤ) → (m : ℤ) < pi → ∀ v, st'.arr[m]? = some v →
          lt v pvv = true) ∧
        (∀ m : ℕ, pi < (m : ℤ) → (m : ℤ) ≤ high → ∀ v, st'.arr[m]? = some v →
          lt v pvv = false)) ∧
      (∀ p : α → Prop,
        (∀ m : ℕ, low ≤ (m : ℤ) → (m : ℤ) ≤ high → ∀ v, st.arr[m]? = some v → p v) →
        (∀ m : ℕ, low ≤ (m : ℤ) → (m : ℤ) ≤ high → ∀ v, st'.arr[m]? = some v → p v)) ∧
      (∃ Δ, st'.steps = st.steps ++ Δ ∧ Δ ≠ [] ∧ ∀ s ∈ Δ, s.array.Perm st.arr) ∧
      st'.steps.getLast?.map Snapshot.array = some st'.arr := by
  intro pi st' hres
  simp only [randomizedPartition, saveStep] at hres
  have hmod : c % (high - low + 1).toNat < (high - low + 1).toNat :=
    Nat.mod_lt c (by omega)
  generalize hri : low + ((c % (high - low + 1).toNat : ℕ) : ℤ) = ri at hres
  have hri1 : low ≤ ri := by omega
  have hri2 : ri ≤ high := by omega
  generalize harr2 : listSwap st.arr ri.toNat high.toNat = arr2 at hres
  have harr2len : arr2.length = st.arr.length := by
    rw [← harr2]; exact listSwap_length st.arr ri.toNat high.toNat
  have harr2perm : arr2.Perm st.arr := by
    rw [← harr2]; exact listSwap_perm st.arr ri.toNat high.toNat
  have hpvv : ∃ pvv, arr2[high.toNat]? = some pvv :=
    ⟨arr2[high.toNat], List.getElem?_eq_getElem (by omega)⟩
  obtain ⟨pvv, hpvv⟩ := hpvv
  rw [hpvv] at hres
  rcases hPL : partitionLoop lt (some pvv) high low (low - 1)
    ⟨arr2, st.steps ++ [⟨st.arr, ⟨some ri, none, false⟩⟩]⟩ with ⟨i1, st1⟩
  rw [hPL] at hres
  simp only [Prod.mk.injEq] at hres
  obtain ⟨hpi, hst⟩ := hres
  have main := partitionLoop_main lt pvv high (high - low).toNat low (low - 1) low
    ⟨arr2, st.steps ++ [⟨st.arr, ⟨some ri, none, false⟩⟩]⟩ i1 st1 hPL (le_refl _)
    (by omega) (by omega) (by omega) (by omega) (by omega) (by simp; omega)
    (by intro m hm1 hm2 v hv; omega) (by intro m hm1 hm2 v hv; omega)
  obtain ⟨⟨hi1a, hi1b⟩, hlen1, hfr1, hperm1, hA1, hB1, hband1, Δ1, hΔ1, hΔ1p⟩ := main
  subst hpi
  subst hst
  have hst1high : st1.arr[high.toNat]? = some pvv := by
    rw [hfr1 high.toNat (Or.inr (by omega))]
    exact hpvv
  have hst1len : st1.arr.length = st.arr.length := by
    simpa [harr2len] using hlen1
  have hpi1 : ∃ w, st1.arr[(i1 + 1).toNat]? = some w :=
    ⟨st1.arr[(i1 + 1).toNat], List.getElem?_eq_getElem (by omega)⟩
  obtain ⟨w, hw⟩ := hpi1
  refine ⟨⟨by omega, by omega⟩, by simp [listSwap_length, hst1len], ?_, ?_, ?_, ?_, ?_, ?_⟩
  · -- frame outside [low, high]
    intro m hm
    have h4 : (listSwap st1.arr (i1 + 1).toNat high.toNat)[m]? = st1.arr[m]? :=
      listSwap_getElem?_other st1.arr _ _ m (by omega) (by omega)
    have h5 : st1.arr[m]? = arr2[m]? := hfr1 m (by omega)
    have h6 : arr2[m]? = st.arr[m]? := by
      rw [← harr2]
      exact listSwap_getElem?_other st.arr _ _ m (by omega) (by omega)
    simp only [h4, h5, h6]
  · -- permutation
    exact ((listSwap_perm st1.arr _ _).trans hperm1).trans harr2perm
  · -- the partition bands around the pivot value
    refine ⟨pvv, ?_, ?_, ?_⟩
    · by_cases hne : i1 + 1 = high
      · have : (i1 + 1).toNat = high.toNat := by omega
        rw [this]
        rw [this] at hw
        rw [listSwap_getElem?_snd st1.arr high.toNat high.toNat w w hw hw]
        rw [hw] at hst1high
        exact hst1high
      · rw [listSwap_getElem?_fst st1.arr (i1 + 1).toNat high.toNat w pvv
          (by omega) hw hst1high]
    · intro m hm1 hm2 v hv
      rw [listSwap_getElem?_other st1.arr _ _ m (by omega) (by omega)] at hv
      exact hA1 m hm1 (by omega) v hv
    · intro m hm1 hm2 v hv
      by_cases hmh : (m : ℤ) = high
      · have hm : m = high.toNat := by omega
        subst hm
        rw [listSwap_getElem?_snd st1.arr _ _ w pvv hw hst1high] at hv
        cases hv
        exact hB1 (i1 + 1).toNat (by omega) (by omega) _ hw
      · rw [listSwap_getElem?_other st1.arr _ _ m (by omega) (by omega)] at hv
        exact hB1 m (by omega) (by omega) v hv
  · -- band preservation over [low, high]
    intro p hp
    have hp2 : ∀ m : ℕ, low ≤ (m : ℤ) → (m : ℤ) ≤ high → ∀ v, arr2[m]? = some v → p v := by
      rw [← harr2]
      exact listSwap_band st.arr ri.toNat high.toNat low high p (by omega) (by omega)
        (by omega) (by omega) hp
    have hp3 := hband1 p (by simpa using hp2)
    exact listSwap_band st1.arr (i1 + 1).toNat high.toNat low high p (by omega)
      (by omega) (by omega) (by omega) (by simpa using hp3)
  · -- step log: append-only, nonempty, all snapshots permutations
    refine ⟨⟨st.arr, ⟨some ri, none, false⟩⟩ :: (Δ1 ++
      [⟨listSwap st1.arr (i1 + 1).toNat high.toNat, Highlight.none'⟩]), ?_, by simp, ?_⟩
    · simp only [hΔ1]
      simp
    · intro s hs
      simp only [List.mem_cons, List.mem_append, List.not_mem_nil, or_false] at hs
      rcases hs with rfl | hs | rfl
      · exact List.Perm.refl _
      · exact (hΔ1p s hs).trans harr2perm
      · exact ((listSwap_perm st1.arr _ _).trans hperm1).trans harr2perm
  · -- the last snapshot records the exit array
    simp [List.getLast?_concat]

theorem randomizedQuickSort_stop {α : Type} (lt : α → α → Bool) (rand : ℕ → ℕ)
    (k : ℕ) (low high : ℤ) (st : St α) (h : ¬ low < high) :
    randomizedQuickSort lt rand k low high st = (k, st) := by
  rw [randomizedQuickSort, dif_neg h]

/-- Structural behaviour of `randomizedQuickSort` on `[low, high]`:
length preservation, frame outside the subrange, permutation,
preservation of value bands over the subrange, append-only growth of
the step log (strict growth when the subrange is non-trivial) with all
appended snapshots permutations of the entry array, preservation of the
"last snapshot records the current array" invariant, and monotonicity
of the randomness counter. -/
theorem randomizedQuickSort_main {α : Type} (lt : α → α → Bool) (rand : ℕ → ℕ) :
    ∀ (N : ℕ) (k : ℕ) (low high : ℤ) (st : St α) (k' : ℕ) (st' : St α),
      randomizedQuickSort lt rand k low high st = (k', st') →
      (high - low + 1).toNat ≤ N →
      0 ≤ low → (high : ℤ) < st.arr.length →
      st'.arr.length = st.arr.length ∧
      (∀ m : ℕ, ((m : ℤ) < low ∨ high < (m : ℤ)) → st'.arr[m]? = st.arr[m]?) ∧
      st'.arr.Perm st.arr ∧
      (∀ p : α → Prop,
        (∀ m : ℕ, low ≤ (m : ℤ) → (m : ℤ) ≤ high → ∀ v, st.arr[m]? = some v → p v) →
        (∀ m : ℕ, low ≤ (m : ℤ) → (m : ℤ) ≤ high → ∀ v, st'.arr[m]? = some v → p v)) ∧
      (∃ Δ, st'.steps = st.steps ++ Δ ∧ (∀ s ∈ Δ, s.array.Perm st.arr) ∧
        (low < high → Δ ≠ [])) ∧
      (st.steps.getLast?.map Snapshot.array = some st.arr →
        st'.steps.getLast?.map Snapshot.array = some st'.arr) ∧
      k ≤ k' := by
  intro N
  induction N with
  | zero =>
    intro k low high st k' st' hres hN hlow hlen
    rw [randomizedQuickSort_stop lt rand k low high st (by omega)] at hres
    injection hres with hk hst
    subst hk; subst hst
    exact ⟨rfl, fun m _ => rfl, List.Perm.refl _, fun p hp => hp,
      ⟨[], by simp, by simp, fun hlh => absurd hlh (by omega)⟩, fun h => h, le_refl k⟩
  | succ N ih =>
    intro k low high st k' st' hres hN hlow hlen
    by_cases hlh : low < high
    · rw [randomizedQuickSort, dif_pos hlh] at hres
      rcases hP : randomizedPartition lt (rand k) low high st with ⟨pi, st1⟩
      rw [hP] at hres
      dsimp only at hres
      rcases hL : randomizedQuickSort lt rand (k + 1) low (pi - 1) st1 with ⟨k1, st2⟩
      rw [hL] at hres
      dsimp only at hres
      obtain ⟨⟨hpi1, hpi2⟩, plen, pfr, pperm, ⟨pvv, hpvv, hAp, hBp⟩, pband,
        ⟨Δp, hΔp, hΔpne, hΔpp⟩, plast⟩ :=
        randomizedPartition_main lt (rand k) low high st hlh hlow hlen pi st1 hP
      obtain ⟨Llen, Lfr, Lperm, Lband, ⟨ΔL, hΔL, hΔLp, _⟩, Llast, Lk⟩ :=
        ih (k + 1) low (pi - 1) st1 k1 st2 hL (by omega) hlow (by omega)
      obtain ⟨Rlen, Rfr, Rperm, Rband, ⟨ΔR, hΔR, hΔRp, _⟩, Rlast, Rk⟩ :=
        ih k1 (pi + 1) high st2 k' st' hres (by omega) (by omega) (by omega)
      refine ⟨by omega, ?_, ?_, ?_, ?_, ?_, by omega⟩
      · intro m hm
        rw [Rfr m (by omega), Lfr m (by omega), pfr m (by omega)]
      · exact (Rperm.trans Lperm).trans pperm
      · intro p hp
        have h1 := pband p hp
        have h2 : ∀ m : ℕ, low ≤ (m : ℤ) → (m : ℤ) ≤ high → ∀ v,
            st2.arr[m]? = some v → p v := by
          intro m hm1 hm2 v hv
          by_cases hmp : (m : ℤ) ≤ pi - 1
          · exact Lband p (fun m' hm1' hm2' v' hv' => h1 m' hm1' (by omega) v' hv')
              m hm1 hmp v hv
          · rw [Lfr m (by omega)] at hv
            exact h1 m hm1 hm2 v hv
        intro m hm1 hm2 v hv
        by_cases hmp : pi + 1 ≤ (m : ℤ)
        · exact Rband p (fun m' hm1' hm2' v' hv' => h2 m' (by omega) hm2' v' hv')
            m hmp hm2 v hv
        · rw [Rfr m (by omega)] at hv
          exact h2 m hm1 hm2 v hv
      · refine ⟨Δp ++ (ΔL ++ ΔR), ?_, ?_, ?_⟩
        · rw [hΔR, hΔL, hΔp]
          simp
        · intro s hs
          simp only [List.mem_append] at hs
          rcases hs with hs | hs | hs
          · exact hΔpp s hs
          · exact (hΔLp s hs).trans pperm
          · exact ((hΔRp s hs).trans Lperm).trans pperm
        · intro _
          simp only [ne_eq, List.append_eq_nil]
          intro hcon
          exact hΔpne hcon.1
      · intro _
        exact Rlast (Llast plast)
    · rw [randomizedQuickSort_stop lt rand k low high st hlh] at hres
      injection hres with hk hst
      subst hk; subst hst
      exact ⟨rfl, fun m _ => rfl, List.Perm.refl _, fun p hp => hp,
        ⟨[], by simp, by simp, fun h => absurd h hlh⟩, fun h => h, le_refl k⟩

/-- After `randomizedQuickSort` with the strict comparison of a linear
order, the subrange `[low, high]` of the working array is in
non-descending order. -/
theorem randomizedQuickSort_sorted {α : Type} [LinearOrder α] (rand : ℕ → ℕ) :
    ∀ (N : ℕ) (k : ℕ) (low high : ℤ) (st : St α) (k' : ℕ) (st' : St α),
      randomizedQuickSort ltb rand k low high st = (k', st') →
      (high - low + 1).toNat ≤ N →
      0 ≤ low → (high : ℤ) < st.arr.length →
      ∀ (m1 m2 : ℕ), low ≤ (m1 : ℤ) → m1 ≤ m2 → (m2 : ℤ) ≤ high →
        ∀ v1 v2, st'.arr[m1]? = some v1 → st'.arr[m2]? = some v2 → v1 ≤ v2 := by
  intro N
  induction N with
  | zero =>
    intro k low high st k' st' hres hN hlow hlen m1 m2 hm1 hm12 hm2 v1 v2 hv1 hv2
    omega
  | succ N ih =>
    intro k low high st k' st' hres hN hlow hlen m1 m2 hm1 hm12 hm2 v1 v2 hv1 hv2
    by_cases hlh : low < high
    · rw [randomizedQuickSort, dif_pos hlh] at hres
      rcases hP : randomizedPartition ltb (rand k) low high st with ⟨pi, st1⟩
      rw [hP] at hres
      dsimp only at hres
      rcases hL : randomizedQuickSort ltb rand (k + 1) low (pi - 1) st1 with ⟨k1, st2⟩
      rw [hL] at hres
      dsimp only at hres
      obtain ⟨⟨hpi1, hpi2⟩, plen, pfr, pperm, ⟨pvv, hpvv, hAp, hBp⟩, pband,
        pΔ, plast⟩ :=
        randomizedPartition_main ltb (rand k) low high st hlh hlow hlen pi st1 hP
      obtain ⟨Llen, Lfr, Lperm, Lband, LΔ, Llast, Lk⟩ :=
        randomizedQuickSort_main ltb rand (pi - low).toNat (k + 1) low (pi - 1) st1
          k1 st2 hL (by omega) hlow (by omega)
      obtain ⟨Rlen, Rfr, Rperm, Rband, RΔ, Rlast, Rk⟩ :=
        randomizedQuickSort_main ltb rand (high - pi).toNat k1 (pi + 1) high st2
          k' st' hres (by omega) (by omega) (by omega)
      -- the pivot value sits at `pi` in the final array
      have hpvv2 : st2.arr[pi.toNat]? = some pvv := by
        rw [Lfr pi.toNat (by omega)]
        exact hpvv
      have hpvvF : st'.arr[pi.toNat]? = some pvv := by
        rw [Rfr pi.toNat (by omega)]
        exact hpvv2
      -- everything in `[low, pi)` of the final array is `< pvv`
      have hleft : ∀ m : ℕ, low ≤ (m : ℤ) → (m : ℤ) < pi → ∀ v,
          st'.arr[m]? = some v → v < pvv := by
        intro m hma hmb v hv
        rw [Rfr m (by omega)] at hv
        have hband2 := Lband (fun v => v < pvv)
          (fun m' hm1' hm2' v' hv' => of_decide_eq_true (hAp m' hm1' (by omega) v' hv'))
        exact hband2 m hma (by omega) v hv
      -- everything in `(pi, high]` of the final array is `≥ pvv`
      have hright : ∀ m : ℕ, pi < (m : ℤ) → (m : ℤ) ≤ high → ∀ v,
          st'.arr[m]? = some v → pvv ≤ v := by
        intro m hma hmb v hv
        have hband1 : ∀ m' : ℕ, pi + 1 ≤ (m' : ℤ) → (m' : ℤ) ≤ high → ∀ v',
            st2.arr[m']? = some v' → pvv ≤ v' := by
          intro m' hm1' hm2' v' hv'
          rw [Lfr m' (by omega)] at hv'
          exact not_lt.mp (of_decide_eq_false (hBp m' (by omega) hm2' v' hv'))
        exact Rband (fun v => pvv ≤ v) hband1 m (by omega) hmb v hv
      -- left part sorted in the final array
      have hLsorted : ∀ (n1 n2 : ℕ), low ≤ (n1 : ℤ) → n1 ≤ n2 → (n2 : ℤ) ≤ pi - 1 →
          ∀ w1 w2, st'.arr[n1]? = some w1 → st'.arr[n2]? = some w2 → w1 ≤ w2 := by
        intro n1 n2 hn1 hn12 hn2 w1 w2 hw1 hw2
        rw [Rfr n1 (by omega)] at hw1
        rw [Rfr n2 (by omega)] at hw2
        exact ih (k + 1) low (pi - 1) st1 k1 st2 hL (by omega) hlow (by omega)
          n1 n2 hn1 hn12 hn2 w1 w2 hw1 hw2
      -- right part sorted in the final array
      have hRsorted : ∀ (n1 n2 : ℕ), pi + 1 ≤ (n1 : ℤ) → n1 ≤ n2 → (n2 : ℤ) ≤ high →
          ∀ w1 w2, st'.arr[n1]? = some w1 → st'.arr[n2]? = some w2 → w1 ≤ w2 :=
        fun n1 n2 hn1 hn12 hn2 w1 w2 hw1 hw2 =>
          ih k1 (pi + 1) high st2 k' st' hres (by omega) (by omega) (by omega)
            n1 n2 hn1 hn12 hn2 w1 w2 hw1 hw2
      by_cases hc1 : (m2 : ℤ) ≤ pi - 1
      · exact hLsorted m1 m2 hm1 hm12 hc1 v1 v2 hv1 hv2
      · by_cases hc2 : pi + 1 ≤ (m1 : ℤ)
        · exact hRsorted m1 m2 hc2 hm12 hm2 v1 v2 hv1 hv2
        · -- m1 ≤ pi ≤ m2
          have hvm1 : v1 ≤ pvv := by
            by_cases h : (m1 : ℤ) = pi
            · have : m1 = pi.toNat := by omega
              subst this
              rw [hpvvF] at hv1
              cases hv1
              exact le_refl _
            · exact le_of_lt (hleft m1 hm1 (by omega) v1 hv1)
          have hvm2 : pvv ≤ v2 := by
            by_cases h : (m2 : ℤ) = pi
            · have : m2 = pi.toNat := by omega
              subst this
              rw [hpvvF] at hv2
              cases hv2
              exact le_refl _
            · exact hright m2 (by omega) hm2 v2 hv2
          exact le_trans hvm1 hvm2
    · rw [randomizedQuickSort_stop ltb rand k low high st hlh] at hres
      injection hres with hk hst
      subst hk; subst hst
      have : m1 = m2 := by omega
      subst this
      rw [hv1] at hv2
      cases hv2
      exact le_refl v1

/-- Decomposition of the whole recorded trace: it is the initial
snapshot of the input, the snapshots appended by the recursion (all
permutations of the input), and one final `{sorted: true}` snapshot
whose array is exactly the exit array of the recursion. -/
theorem sortTrace_decomp {α : Type} (lt : α → α → Bool) (rand : ℕ → ℕ)
    (input : List α) :
    ∀ (k' : ℕ) (st' : St α),
      randomizedQuickSort lt rand 0 0 ((input.length : ℤ) - 1)
        ⟨input, [⟨input, Highlight.none'⟩]⟩ = (k', st') →
      sortTrace lt rand input = st'.steps ++ [⟨st'.arr, ⟨none, none, true⟩⟩] ∧
      (∃ Δ, st'.steps = ⟨input, Highlight.none'⟩ :: Δ ∧
        (∀ s ∈ Δ, s.array.Perm input) ∧
        (input.length ≤ 1 → Δ = []) ∧
        (2 ≤ input.length → Δ ≠ [])) ∧
      st'.arr.Perm input ∧
      st'.arr.length = input.length := by
  intro k' st' hres
  obtain ⟨mlen, mfr, mperm, mband, ⟨Δ, hΔ, hΔp, hΔne⟩, mlast, mk⟩ :=
    randomizedQuickSort_main lt rand input.length 0 0 ((input.length : ℤ) - 1)
      ⟨input, [⟨input, Highlight.none'⟩]⟩ k' st' hres (by omega) (by omega)
      (by simp)
  have hlast : st'.steps.getLast?.map Snapshot.array = some st'.arr :=
    mlast (by simp)
  have hlastArr : (st'.steps.getLast?).elim ([] : List α) Snapshot.array = st'.arr := by
    cases hgl : st'.steps.getLast? with
    | none => simp [hgl] at hlast
    | some s =>
      rw [hgl] at hlast
      rw [Option.map_some'] at hlast
      injection hlast
  constructor
  · simp only [sortTrace, saveStep, List.nil_append]
    rw [hres]
    dsimp only
    rw [hlastArr]
  refine ⟨⟨Δ, hΔ, hΔp, ?_, ?_⟩, mperm, by simpa using mlen⟩
  · intro hn
    rw [randomizedQuickSort_stop lt rand 0 0 ((input.length : ℤ) - 1) _
      (by omega)] at hres
    injection hres with hk hst
    have : st'.steps = [⟨input, Highlight.none'⟩] := by rw [← hst]
    rw [this] at hΔ
    simpa using hΔ.symm
  · intro hn
    exact hΔne (by omega)

theorem randomizedQuickSort_k_mono {α : Type} (lt : α → α → Bool) (rand : ℕ → ℕ) :
    ∀ (N : ℕ) (k : ℕ) (low high : ℤ) (st : St α) (k' : ℕ) (st' : St α),
      randomizedQuickSort lt rand k low high st = (k', st') →
      (high - low + 1).toNat ≤ N → k ≤ k' := by
  intro N
  induction N with
  | zero =>
    intro k low high st k' st' hres hN
    rw [randomizedQuickSort_stop lt rand k low high st (by omega)] at hres
    injection hres with hk _
    omega
  | succ N ih =>
    intro k low high st k' st' hres hN
    by_cases hlh : low < high
    · rw [randomizedQuickSort, dif_pos hlh] at hres
      rcases hP : randomizedPartition lt (rand k) low high st with ⟨pi, st1⟩
      rw [hP] at hres
      dsimp only at hres
      rcases hL : randomizedQuickSort lt rand (k + 1) low (pi - 1) st1 with ⟨k1, st2⟩
      rw [hL] at hres
      dsimp only at hres
      have hpi1 := randomizedPartition_fst_ge lt (rand k) low high st
      have hpi2 := randomizedPartition_fst_le lt (rand k) low high st hlh
      rw [hP] at hpi1 hpi2
      have h1 := ih (k + 1) low (pi - 1) st1 k1 st2 hL (by omega)
      have h2 := ih k1 (pi + 1) high st2 k' st' hres (by omega)
      omega
    · rw [randomizedQuickSort_stop lt rand k low high st hlh] at hres
      injection hres with hk _
      omega

/-- The sorter is deterministic given its random draws: two random
streams that agree on every draw the first run consumes produce exactly
the same result. -/
theorem randomizedQuickSort_ext {α : Type} (lt : α → α → Bool) (r1 r2 : ℕ → ℕ) :
    ∀ (N : ℕ) (k : ℕ) (low high : ℤ) (st : St α) (k' : ℕ) (st' : St α),
      randomizedQuickSort lt r1 k low high st = (k', st') →
      (high - low + 1).toNat ≤ N →
      (∀ m, k ≤ m → m < k' → r1 m = r2 m) →
      randomizedQuickSort lt r2 k low high st = (k', st') := by
  intro N
  induction N with
  | zero =>
    intro k low high st k' st' hres hN hag
    rw [randomizedQuickSort_stop lt r1 k low high st (by omega)] at hres
    rw [randomizedQuickSort_stop lt r2 k low high st (by omega)]
    exact hres
  | succ N ih =>
    intro k low high st k' st' hres hN hag
    by_cases hlh : low < high
    · rw [randomizedQuickSort, dif_pos hlh] at hres
      rcases hP : randomizedPartition lt (r1 k) low high st with ⟨pi, st1⟩
      rw [hP] at hres
      dsimp only at hres
      rcases hL : randomizedQuickSort lt r1 (k + 1) low (pi - 1) st1 with ⟨k1, st2⟩
      rw [hL] at hres
      dsimp only at hres
      have hpi1 := randomizedPartition_fst_ge lt (r1 k) low high st
      have hpi2 := randomizedPartition_fst_le lt (r1 k) low high st hlh
      rw [hP] at hpi1 hpi2
      have hk1 := randomizedQuickSort_k_mono lt r1 (pi - low).toNat (k + 1) low
        (pi - 1) st1 k1 st2 hL (by omega)
      have hk2 := randomizedQuickSort_k_mono lt r1 (high - pi).toNat k1 (pi + 1)
        high st2 k' st' hres (by omega)
      have hL2 := ih (k + 1) low (pi - 1) st1 k1 st2 hL (by omega)
        (fun m hm1 hm2 => hag m (by omega) (by omega))
      have hR2 := ih k1 (pi + 1) high st2 k' st' hres (by omega)
        (fun m hm1 hm2 => hag m (by omega) hm2)
      rw [randomizedQuickSort, dif_pos hlh]
      rw [hag k (le_refl k) (by omega)] at hP
      rw [hP]
      dsimp only
      rw [hL2]
      dsimp only
      exact hR2
    · rw [randomizedQuickSort_stop lt r1 k low high st hlh] at hres
      rw [randomizedQuickSort_stop lt r2 k low high st hlh]
      exact hres

/-- The event order prescribed by the specification for the partition
scan (spec §4.2, step 3d, quoted by the claim): for each `j` from its
start up to `high - 1`, one comparison snapshot with
`pivotIndex = high, compareIndex = j` of the current array; exactly when
`arr[j] < pivotValue`, the boundary advances, `arr[i]` and `arr[j]` are
swapped, and one post-swap snapshot with `pivotIndex = high` and no
compare highlight follows.  Returns the final boundary, the resulting
array, and the recorded snapshots in order. -/
def specScan {α : Type} (lt : α → α → Bool) (pv : Option α) (high : ℤ)
    (j i : ℤ) (arr : List α) : ℤ × List α × List (Snapshot α) :=
  if h : j < high then
    if optLt lt arr[j.toNat]? pv then
      let arr2 := listSwap arr (i + 1).toNat j.toNat
      let rest := specScan lt pv high (j + 1) (i + 1) arr2
      (rest.1, rest.2.1,
        ⟨arr, ⟨some high, some j, false⟩⟩ :: ⟨arr2, ⟨some high, none, false⟩⟩ :: rest.2.2)
    else
      let rest := specScan lt pv high (j + 1) i arr
      (rest.1, rest.2.1, ⟨arr, ⟨some high, some j, false⟩⟩ :: rest.2.2)
  else (i, arr, [])
termination_by (high - j).toNat
decreasing_by all_goals omega

theorem specScan_stop {α : Type} (lt : α → α → Bool) (pv : Option α)
    (high j i : ℤ) (arr : List α) (hj : ¬ j < high) :
    specScan lt pv high j i arr = (i, arr, []) := by
  rw [specScan, dif_neg hj]

/-- The implementation's scan loop records exactly the snapshot sequence
prescribed by the specification, in the same order, and computes the
same boundary and array. -/
theorem partitionLoop_eq_specScan {α : Type} (lt : α → α → Bool) (pv : Option α)
    (high : ℤ) :
    ∀ (B : ℕ) (j i : ℤ) (arr : List α) (steps : List (Snapshot α)),
      (high - j).toNat ≤ B →
      partitionLoop lt pv high j i ⟨arr, steps⟩ =
        ((specScan lt pv high j i arr).1,
          ⟨(specScan lt pv high j i arr).2.1,
            steps ++ (specScan lt pv high j i arr).2.2⟩) := by
  intro B
  induction B with
  | zero =>
    intro j i arr steps hB
    rw [partitionLoop_stop lt pv high j i _ (by omega),
      specScan_stop lt pv high j i arr (by omega)]
    simp
  | succ B ih =>
    intro j i arr steps hB
    by_cases hj : j < high
    · rw [partitionLoop, dif_pos hj]
      rw [specScan, dif_pos hj]
      simp only [saveStep]
      by_cases hc : optLt lt arr[j.toNat]? pv = true
      · rw [if_pos hc, if_pos hc]
        rw [ih (j + 1) (i + 1) (listSwap arr (i + 1).toNat j.toNat) _ (by omega)]
        simp
      · rw [if_neg hc, if_neg hc]
        rw [ih (j + 1) i arr _ (by omega)]
        simp
    · rw [partitionLoop_stop lt pv high j i _ hj, specScan_stop lt pv high j i arr hj]
      simp

theorem sortTrace_head {α : Type} (lt : α → α → Bool) (rand : ℕ → ℕ)
    (input : List α) :
    (sortTrace lt rand input).head? = some ⟨input, Highlight.none'⟩ := by
  rcases hres : randomizedQuickSort lt rand 0 0 ((input.length : ℤ) - 1)
    ⟨input, [⟨input, Highlight.none'⟩]⟩ with ⟨k', st'⟩
  obtain ⟨htr, ⟨Δ, hΔ, _, _, _⟩, _, _⟩ := sortTrace_decomp lt rand input k' st' hres
  rw [htr, hΔ]
  simp

theorem sortTrace_length_two {α : Type} (lt : α → α → Bool) (rand : ℕ → ℕ)
    (input : List α) (h : input.length ≤ 1) :
    (sortTrace lt rand input).length = 2 := by
  rcases hres : randomizedQuickSort lt rand 0 0 ((input.length : ℤ) - 1)
    ⟨input, [⟨input, Highlight.none'⟩]⟩ with ⟨k', st'⟩
  obtain ⟨htr, ⟨Δ, hΔ, _, hsmall, _⟩, _, _⟩ := sortTrace_decomp lt rand input k' st' hres
  rw [htr, hΔ, hsmall h]
  simp

theorem sortTrace_length_gt_two {α : Type} (lt : α → α → Bool) (rand : ℕ → ℕ)
    (input : List α) (h : 2 ≤ input.length) :
    2 < (sortTrace lt rand input).length := by
  rcases hres : randomizedQuickSort lt rand 0 0 ((input.length : ℤ) - 1)
    ⟨input, [⟨input, Highlight.none'⟩]⟩ with ⟨k', st'⟩
  obtain ⟨htr, ⟨Δ, hΔ, _, _, hbig⟩, _, _⟩ := sortTrace_decomp lt rand input k' st' hres
  rw [htr, hΔ]
  have := hbig h
  simp only [List.length_append, List.length_cons, List.length_singleton]
  have : Δ.length ≠ 0 := fun hz => (hbig h) (List.length_eq_zero.mp hz)
  omega

theorem sortTrace_mem_perm {α : Type} (lt : α → α → Bool) (rand : ℕ → ℕ)
    (input : List α) :
    ∀ s ∈ sortTrace lt rand input, s.array.Perm input ∧
      s.array.length = input.length := by
  rcases hres : randomizedQuickSort lt rand 0 0 ((input.length : ℤ) - 1)
    ⟨input, [⟨input, Highlight.none'⟩]⟩ with ⟨k', st'⟩
  obtain ⟨htr, ⟨Δ, hΔ, hΔp, _, _⟩, hperm, _⟩ := sortTrace_decomp lt rand input k' st' hres
  intro s hs
  rw [htr, hΔ] at hs
  simp only [List.cons_append, List.mem_cons, List.mem_append,
    List.not_mem_nil, or_false] at hs
  have hp : s.array.Perm input := by
    rcases hs with rfl | hs | rfl
    · exact List.Perm.refl input
    · exact hΔp s hs
    · exact hperm
  exact ⟨hp, hp.length_eq⟩

theorem sortTrace_getLast {α : Type} [LinearOrder α] (rand : ℕ → ℕ)
    (input : List α) :
    ∃ s, (sortTrace ltb rand input).getLast? = some s ∧
      s.array.Perm input ∧ List.Sorted (· ≤ ·) s.array ∧
      s.highlight = ⟨none, none, true⟩ := by
  rcases hres : randomizedQuickSort ltb rand 0 0 ((input.length : ℤ) - 1)
    ⟨input, [⟨input, Highlight.none'⟩]⟩ with ⟨k', st'⟩
  obtain ⟨htr, _, hperm, hlen⟩ := sortTrace_decomp ltb rand input k' st' hres
  refine ⟨⟨st'.arr, ⟨none, none, true⟩⟩, ?_, hperm, ?_, rfl⟩
  · rw [htr]
    exact List.getLast?_concat _
  · have hsorted := randomizedQuickSort_sorted rand input.length 0 0
      ((input.length : ℤ) - 1) ⟨input, [⟨input, Highlight.none'⟩]⟩ k' st' hres
      (by omega) (by omega) (by simp)
    show List.Sorted (· ≤ ·) st'.arr
    rw [List.Sorted, List.pairwise_iff_getElem]
    intro a b ha hb hab
    exact hsorted a b (by omega) (by omega) (by omega)
      st'.arr[a] st'.arr[b] (List.getElem?_eq_getElem ha) (List.getElem?_eq_getElem hb)

/-- JavaScript `Number.isFinite` on a parsed number: true exactly for
finite values (false for NaN and ±Infinity). -/
def jsIsFinite : JSNum → Bool
  | JSNum.fin _ => true
  | _ => false

/-- The snapshot sequence one `partition(arr, low, high)` call appends,
as the specification words it (§4.2 step 3, quoted by the claim):
(a) one snapshot of the untouched array with `pivotIndex = randomIndex`,
taken before the pivot is moved; (d) the scan snapshots of `specScan`
(per `j`: one compare snapshot, plus one post-swap snapshot exactly when
`arr[j] < pivotValue`); (e) one snapshot with no highlight taken after
the pivot is swapped into position `i + 1`. -/
def specPartitionTrace {α : Type} (lt : α → α → Bool) (c : ℕ)
    (low high : ℤ) (arr : List α) : List (Snapshot α) :=
  let randomIndex : ℤ := low + ((c % (high - low + 1).toNat : ℕ) : ℤ)
  let arr1 := listSwap arr randomIndex.toNat high.toNat
  let scan := specScan lt arr1[high.toNat]? high low (low - 1) arr1
  ⟨arr, ⟨some randomIndex, none, false⟩⟩ :: scan.2.2 ++
    [⟨listSwap scan.2.1 (scan.1 + 1).toNat high.toNat, Highlight.none'⟩]

/-! ### The claims -/

/-- C1.  For every finite input sequence of numbers (possibly empty or
with duplicates), the trace returned by sort ends with a snapshot whose
values is a permutation of the input arranged in non-descending order
and whose highlight has `sorted = true`. -/
theorem spec_c1_final_snapshot_sorted_perm {α : Type} [LinearOrder α]
    (rand : ℕ → ℕ) (input : List α) :
    ∃ s, (sortTrace ltb rand input).getLast? = some s ∧
      s.array.Perm input ∧ List.Sorted (· ≤ ·) s.array ∧
      s.highlight.sorted = true := by
  obtain ⟨s, h1, h2, h3, h4⟩ := sortTrace_getLast rand input
  exact ⟨s, h1, h2, h3, by rw [h4]⟩

/-- C2 (amended).  For every input array containing a NaN entry (the
result of parsing a non-numeric field), `generateArray` stops before any
snapshot is recorded and the trace stays empty; non-finite values such
as Infinity are not detected by the `isNaN` check, so they are not
rejected (see the counterexample). -/
theorem spec_c2_nan_rejected (rand : ℕ → ℕ) (numbers : List JSNum)
    (h : numbers.any jsIsNaN = true) : genSteps rand numbers = [] := by
  rw [genSteps, if_pos h]

theorem spec_c2_witness :
    ([JSNum.nan].any jsIsNaN = true) ∧ genSteps (fun _ => 0) [JSNum.nan] = [] :=
  ⟨by decide, spec_c2_nan_rejected (fun _ => 0) [JSNum.nan] (by decide)⟩

/-- C2 (counterexample).  `[Infinity]` contains a non-finite entry, yet
`generateArray` does not fail: it records a full trace of length 2
instead of leaving the trace empty. -/
theorem spec_c2_counterexample_infinity :
    ([JSNum.posInf].all jsIsFinite = false) ∧
    (genSteps (fun _ => 0) [JSNum.posInf]).length = 2 ∧
    genSteps (fun _ => 0) [JSNum.posInf] ≠ [] := by
  refine ⟨by decide, ?_, ?_⟩
  · rw [genSteps, if_neg (by decide)]
    exact sortTrace_length_two jsNumLt (fun _ => 0) [JSNum.posInf] (by decide)
  · rw [genSteps, if_neg (by decide)]
    intro hnil
    have := sortTrace_length_two jsNumLt (fun _ => 0) [JSNum.posInf] (by decide)
    rw [hnil] at this
    simp at this

/-- C3.  For every call of partition on a subrange `[low, high]` with
`low < high`, the snapshots it appends are exactly, in order: one
snapshot with `pivotIndex = randomIndex` taken before the pivot is
moved; then, for each `j` from `low` to `high - 1` ascending, one
snapshot with `pivotIndex = high` and `compareIndex = j`, followed —
exactly when `arr[j] < pivotValue` — by one post-swap snapshot with
`pivotIndex = high` and no compare index; and finally one snapshot with
no highlight taken after the pivot is swapped into position `i + 1`
(`specPartitionTrace` spells out that event order as the specification
words it). -/
theorem spec_c3_partition_event_order {α : Type} (lt : α → α → Bool) (c : ℕ)
    (low high : ℤ) (st : St α) (hlh : low < high) :
    (randomizedPartition lt c low high st).2.steps =
      st.steps ++ specPartitionTrace lt c low high st.arr := by
  simp only [randomizedPartition, saveStep, specPartitionTrace]
  rw [partitionLoop_eq_specScan lt _ high (high - low).toNat low (low - 1) _ _
    (by omega)]
  simp

theorem spec_c3_witness :
    ((0 : ℤ) < 1) ∧
    (randomizedPartition ltb 0 0 1 (⟨[1, 2], []⟩ : St ℤ)).2.steps =
      [] ++ specPartitionTrace ltb 0 0 1 [1, 2] :=
  ⟨by decide, spec_c3_partition_event_order ltb 0 0 1 ⟨[1, 2], []⟩ (by decide)⟩

/-- C4.  For every input of length `n`, the returned trace has length
exactly 2 when `n ≤ 1`, and finite length strictly greater than 2 when
`n ≥ 2`. -/
theorem spec_c4_trace_length_bounds {α : Type} (lt : α → α → Bool)
    (rand : ℕ → ℕ) (input : List α) :
    (input.length ≤ 1 → (sortTrace lt rand input).length = 2) ∧
    (2 ≤ input.length → 2 < (sortTrace lt rand input).length) :=
  ⟨sortTrace_length_two lt rand input, sortTrace_length_gt_two lt rand input⟩

theorem spec_c4_witness :
    (([(5 : ℤ)].length ≤ 1) ∧ (sortTrace ltb (fun _ => 0) [(5 : ℤ)]).length = 2) ∧
    ((2 ≤ [(3 : ℤ), 1, 2].length) ∧
      2 < (sortTrace ltb (fun _ => 0) [(3 : ℤ), 1, 2]).length) :=
  ⟨⟨by decide, (spec_c4_trace_length_bounds ltb (fun _ => 0) [(5 : ℤ)]).1 (by decide)⟩,
   ⟨by decide, (spec_c4_trace_length_bounds ltb (fun _ => 0) [(3 : ℤ), 1, 2]).2 (by decide)⟩⟩

/-- C5.  For every valid input, the first snapshot of the returned trace
has values equal to the original input exactly (same elements in the
same order) and an empty highlight descriptor. -/
theorem spec_c5_trace_head {α : Type} (lt : α → α → Bool) (rand : ℕ → ℕ)
    (input : List α) :
    (sortTrace lt rand input).head? = some ⟨input, Highlight.none'⟩ :=
  sortTrace_head lt rand input

/-- C6.  During every partition scan, an element `arr[j]` equal to the
pivot value is never swapped (the comparison is strict `<`): the loop
step at such a `j` appends exactly the compare snapshot and moves on
with the boundary `i` unchanged — no post-swap snapshot; consequently
every element strictly left of the returned pivot position is strictly
below (in particular different from) the pivot value, so equal elements
end up on the pivot's right side. -/
theorem spec_c6_equal_elements {α : Type} [LinearOrder α] (high j i : ℤ)
    (st : St α) (pvv : α) (hj : j < high)
    (heq : st.arr[j.toNat]? = some pvv) :
    (partitionLoop ltb (some pvv) high j i st =
      partitionLoop ltb (some pvv) high (j + 1) i
        (saveStep st ⟨some high, some j, false⟩)) ∧
    (∀ (c : ℕ) (low pi : ℤ) (st' : St α), low < high → 0 ≤ low →
      (high : ℤ) < st.arr.length →
      randomizedPartition ltb c low high st = (pi, st') →
      ∀ (m : ℕ) (v w : α), low ≤ (m : ℤ) → (m : ℤ) < pi →
        st'.arr[m]? = some v → st'.arr[pi.toNat]? = some w →
        v < w ∧ v ≠ w) := by
  constructor
  · rw [partitionLoop, dif_pos hj, if_neg]
    simp [saveStep, heq, optLt, ltb]
  · intro c low pi st' hlh hlow hlen hres m v w hm1 hm2 hv hw
    obtain ⟨_, _, _, _, ⟨pvv2, hpvv2, hA, _⟩, _, _, _⟩ :=
      randomizedPartition_main ltb c low high st hlh hlow hlen pi st' hres
    rw [hw] at hpvv2
    injection hpvv2 with hw2
    have := of_decide_eq_true (hA m hm1 hm2 v hv)
    rw [← hw2] at this
    exact ⟨this, ne_of_lt this⟩

theorem spec_c6_witness :
    ((0 : ℤ) < 1) ∧ ((⟨[5, 5], []⟩ : St ℤ).arr[(0 : ℤ).toNat]? = some 5) ∧
    partitionLoop ltb (some 5) 1 0 (-1) (⟨[5, 5], []⟩ : St ℤ) =
      partitionLoop ltb (some 5) 1 1 (-1)
        (saveStep ⟨[5, 5], []⟩ ⟨some 1, some 0, false⟩) :=
  ⟨by decide, by decide,
    (spec_c6_equal_elements 1 0 (-1) ⟨[5, 5], []⟩ 5 (by decide) (by decide)).1⟩

/-- C7.  Each call of partition on `[low, high]` with `low < high`
returns a pivot index within `[low, high]`, so both recursive subranges
`[low, pivotFinalIndex - 1]` and `[pivotFinalIndex + 1, high]` are
strictly smaller than `[low, high]` and the recursion terminates. -/
theorem spec_c7_partition_range_shrinks {α : Type} (lt : α → α → Bool)
    (c : ℕ) (low high : ℤ) (st : St α) (hlh : low < high) :
    low ≤ (randomizedPartition lt c low high st).1 ∧
    (randomizedPartition lt c low high st).1 ≤ high ∧
    ((randomizedPartition lt c low high st).1 - 1 - low + 1).toNat <
      (high - low + 1).toNat ∧
    (high - ((randomizedPartition lt c low high st).1 + 1) + 1).toNat <
      (high - low + 1).toNat := by
  have h1 := randomizedPartition_fst_ge lt c low high st
  have h2 := randomizedPartition_fst_le lt c low high st hlh
  exact ⟨h1, h2, by omega, by omega⟩

theorem spec_c7_witness :
    ((0 : ℤ) < 1) ∧
    ((0 : ℤ) ≤ (randomizedPartition ltb 0 0 1 (⟨[1, 2], []⟩ : St ℤ)).1 ∧
      (randomizedPartition ltb 0 0 1 (⟨[1, 2], []⟩ : St ℤ)).1 ≤ 1 ∧
      ((randomizedPartition ltb 0 0 1 (⟨[1, 2], []⟩ : St ℤ)).1 - 1 - 0 + 1).toNat <
        ((1 : ℤ) - 0 + 1).toNat ∧
      ((1 : ℤ) - ((randomizedPartition ltb 0 0 1 (⟨[1, 2], []⟩ : St ℤ)).1 + 1) + 1).toNat <
        ((1 : ℤ) - 0 + 1).toNat) :=
  ⟨by decide, spec_c7_partition_range_shrinks ltb 0 0 1 ⟨[1, 2], []⟩ (by decide)⟩

/-- C8.  Every snapshot, once appended, is unaffected by later mutation
of the live array: `saveStep` stores the array's value (the `[...arr]`
copy), so replacing the live array afterwards (`mutateArr`) leaves the
step log — every previously recorded snapshot — unchanged, and the
snapshot just recorded still holds the values the array had at the
moment of recording. -/
theorem spec_c8_snapshots_immutable {α : Type} (st : St α) (l : List α)
    (hl : Highlight) :
    (mutateArr st l).steps = st.steps ∧
    (∀ idx : ℕ, (mutateArr st l).steps[idx]? = st.steps[idx]?) ∧
    (saveStep st hl).steps.getLast? = some ⟨st.arr, hl⟩ ∧
    (mutateArr (saveStep st hl) l).steps.getLast? = some ⟨st.arr, hl⟩ :=
  ⟨rfl, fun _ => rfl, List.getLast?_concat _, List.getLast?_concat _⟩

/-- C9.  The sort is deterministic given its random choices: two runs on
the same input whose random streams agree on every draw the first run
consumes return identical traces. -/
theorem spec_c9_deterministic_given_draws {α : Type} (lt : α → α → Bool)
    (r1 r2 : ℕ → ℕ) (input : List α)
    (hag : ∀ m, m < (randomizedQuickSort lt r1 0 0 ((input.length : ℤ) - 1)
      ⟨input, [⟨input, Highlight.none'⟩]⟩).1 → r1 m = r2 m) :
    sortTrace lt r1 input = sortTrace lt r2 input := by
  rcases hres : randomizedQuickSort lt r1 0 0 ((input.length : ℤ) - 1)
    ⟨input, [⟨input, Highlight.none'⟩]⟩ with ⟨k', st'⟩
  rw [hres] at hag
  have hres2 := randomizedQuickSort_ext lt r1 r2 input.length 0 0
    ((input.length : ℤ) - 1) _ k' st' hres (by omega)
    (fun m hm1 hm2 => hag m (by simpa using hm2))
  simp only [sortTrace, saveStep, List.nil_append]
  rw [hres, hres2]

theorem spec_c9_witness :
    sortTrace ltb (fun _ => 0) [(5 : ℤ)] = sortTrace ltb (fun _ => 7) [(5 : ℤ)] :=
  spec_c9_deterministic_given_draws ltb (fun _ => 0) (fun _ => 7) [(5 : ℤ)]
    (fun m hm => by
      rw [randomizedQuickSort_stop ltb (fun _ => 0) 0 0
        ((([(5 : ℤ)] : List ℤ).length : ℤ) - 1)
        ⟨[(5 : ℤ)], [⟨[(5 : ℤ)], Highlight.none'⟩]⟩ (by decide)] at hm
      simp at hm)

/-- C10.  Every snapshot in the trace — not only the final one — has
values that is a permutation of the input array, in particular of the
same length, because the sorter only ever exchanges pairs of elements of
its working copy between recordings. -/
theorem spec_c10_all_snapshots_perm {α : Type} (lt : α → α → Bool)
    (rand : ℕ → ℕ) (input : List α) (s : Snapshot α)
    (hs : s ∈ sortTrace lt rand input) :
    s.array.Perm input ∧ s.array.length = input.length :=
  sortTrace_mem_perm lt rand input s hs

theorem spec_c10_witness :
    ((⟨[], Highlight.none'⟩ : Snapshot ℤ) ∈
      sortTrace ltb (fun _ => 0) ([] : List ℤ)) ∧
    (⟨[], Highlight.none'⟩ : Snapshot ℤ).array.Perm ([] : List ℤ) ∧
    (⟨[], Highlight.none'⟩ : Snapshot ℤ).array.length = ([] : List ℤ).length := by
  have hmem : (⟨[], Highlight.none'⟩ : Snapshot ℤ) ∈
      sortTrace ltb (fun _ => 0) ([] : List ℤ) := by
    simp [sortTrace, saveStep, randomizedQuickSort_stop, Highlight.none']
  exact ⟨hmem, spec_c10_all_snapshots_perm ltb (fun _ => 0) [] _ hmem⟩
